import Mathlib

/-!
Verification development for the Rosemary streaming conversation client.

The embedding covers the three core components:
1. the Greenhouse conversation store (Zustand store in the source): message
   list, content segments, and the mutation actions;
2. the SSE event-frame decoder (readSSEStream): newline framing, buffering
   of partial lines across chunks, the [DONE] sentinel, and JSON parsing
   with silent drop of malformed frames;
3. the turn controller (onNew / onCancel): dispatch of decoded events to
   the store, the error path that synthesizes an in-thread error message,
   and the cancellation path.

Nondeterministic environment inputs of the source (generated message ids,
Date.now timestamps, the network transport) are passed in as explicit
parameters, which is the standard shallow-embedding treatment.
-/

-- ---------------------------------------------------------------------------
-- JSON values (the source's JSONValue type; numbers are kept as their
-- literal text because no store or decoder behaviour inspects numeric
-- values, only structural equality of frames)
-- ---------------------------------------------------------------------------

inductive JSONValue where
  | null : JSONValue
  | bool (b : Bool) : JSONValue
  | num (raw : String) : JSONValue
  | str (s : String) : JSONValue
  | arr (elems : List JSONValue) : JSONValue
  | obj (fields : List (String × JSONValue)) : JSONValue
deriving Repr

abbrev JSONObject := List (String × JSONValue)

-- ---------------------------------------------------------------------------
-- Content parts and messages (source: store types)
-- ---------------------------------------------------------------------------

structure ToolCallPart where
  toolCallId : String
  toolName : String
  args : JSONObject
  argsText : String
  result : Option JSONValue
  isError : Option Bool
deriving Repr

inductive ContentPart where
  | text (text : String) : ContentPart
  | thinking (thinking : String) : ContentPart
  | image (image : String) : ContentPart
  | toolCall (tc : ToolCallPart) : ContentPart
deriving Repr

inductive Role where
  | user : Role
  | assistant : Role
deriving Repr, DecidableEq

structure Message where
  id : String
  role : Role
  content : List ContentPart
  createdAt : Nat
deriving Repr

inductive Attachment where
  | image (image : String) : Attachment
  | file (path : String) (filename : String) : Attachment
deriving Repr

structure GreenhouseState where
  sessionId : Option String
  messages : List Message
  isRunning : Bool
  totalMessageCount : Nat
  hasMoreHistory : Bool
deriving Repr

def initialState : GreenhouseState :=
  { sessionId := none
    messages := []
    isRunning := false
    totalMessageCount := 0
    hasMoreHistory := false }

-- ---------------------------------------------------------------------------
-- Store actions (source: useGreenhouseStore)
-- ---------------------------------------------------------------------------

/-- Replace the first message whose id matches (immer mutates the message
returned by messages.find in place; functionally this is first-match
replacement). -/
def updateMessage : List Message → String → (Message → Message) → List Message
  | [], _, _ => []
  | m :: rest, mid, f =>
    if m.id == mid then f m :: rest else m :: updateMessage rest mid f

/-- addUserMessage: image attachments first (in order), then exactly one
text part.  File attachments contribute no part (their references are baked
into the text by the caller).  The generated id and Date.now value are
explicit inputs. -/
def addUserMessage (st : GreenhouseState) (id : String) (createdAt : Nat)
    (content : String) (attachments : Option (List Attachment)) : GreenhouseState :=
  let parts : List ContentPart :=
    (match attachments with
     | some atts => atts.filterMap (fun a =>
        match a with
        | .image img => some (ContentPart.image img)
        | .file _ _ => none)
     | none => []) ++ [ContentPart.text content]
  { st with
    messages := st.messages ++ [{ id := id, role := .user, content := parts, createdAt := createdAt }]
    totalMessageCount := st.messages.length + 1 }

/-- addAssistantPlaceholder: appends an empty assistant message. -/
def addAssistantPlaceholder (st : GreenhouseState) (id : String) (createdAt : Nat) :
    GreenhouseState :=
  { st with
    messages := st.messages ++ [{ id := id, role := .assistant, content := [], createdAt := createdAt }]
    totalMessageCount := st.messages.length + 1 }

/-- The accumulation step of appendToAssistant: if the last content part is
a Text part, extend it in place; else push a new Text part. -/
def appendTextPart (content : List ContentPart) (s : String) : List ContentPart :=
  match content.getLast? with
  | some (ContentPart.text t) => content.dropLast ++ [ContentPart.text (t ++ s)]
  | _ => content ++ [ContentPart.text s]

def appendToAssistant (st : GreenhouseState) (messageId : String) (text : String) :
    GreenhouseState :=
  match st.messages.find? (fun m => m.id == messageId) with
  | none => st
  | some m =>
    if m.role = Role.assistant then
      let f := fun (m : Message) => { m with content := appendTextPart m.content text }
      { st with messages := updateMessage st.messages messageId f }
    else st

def isThinkingPart : ContentPart → Bool
  | .thinking _ => true
  | _ => false

def hasThinkingPart (content : List ContentPart) : Bool :=
  content.any isThinkingPart

/-- Extend the first Thinking part in place (immer mutation of the part
returned by content.find). -/
def extendThinkingPart : List ContentPart → String → List ContentPart
  | [], _ => []
  | p :: rest, s =>
    match p with
    | .thinking t => ContentPart.thinking (t ++ s) :: rest
    | _ => p :: extendThinkingPart rest s

/-- The accumulation step of appendThinking: extend an existing Thinking
part anywhere in the message, else unshift a new Thinking part at
position 0. -/
def appendThinkingPart (content : List ContentPart) (s : String) : List ContentPart :=
  if hasThinkingPart content then extendThinkingPart content s
  else ContentPart.thinking s :: content

def appendThinking (st : GreenhouseState) (messageId : String) (thinking : String) :
    GreenhouseState :=
  match st.messages.find? (fun m => m.id == messageId) with
  | none => st
  | some m =>
    if m.role = Role.assistant then
      let f := fun (m : Message) => { m with content := appendThinkingPart m.content thinking }
      { st with messages := updateMessage st.messages messageId f }
    else st

def addToolCall (st : GreenhouseState) (messageId : String) (tc : ToolCallPart) :
    GreenhouseState :=
  match st.messages.find? (fun m => m.id == messageId) with
  | none => st
  | some m =>
    if m.role = Role.assistant then
      let f := fun (m : Message) => { m with content := m.content ++ [ContentPart.toolCall tc] }
      { st with messages := updateMessage st.messages messageId f }
    else st

def hasToolCall (content : List ContentPart) (toolCallId : String) : Bool :=
  content.any (fun p => match p with
    | .toolCall tc => tc.toolCallId == toolCallId
    | _ => false)

/-- Set result/isError on the first ToolCall part with the given id. -/
def setToolResult : List ContentPart → String → JSONValue → Bool → List ContentPart
  | [], _, _, _ => []
  | p :: rest, tcId, r, ie =>
    match p with
    | .toolCall tc =>
      if tc.toolCallId == tcId then
        ContentPart.toolCall { tc with result := some r, isError := some ie } :: rest
      else p :: setToolResult rest tcId r ie
    | _ => p :: setToolResult rest tcId r ie

/-- updateToolResult: no role check on the message (unlike the append
actions); isError defaults to false when omitted. -/
def updateToolResult (st : GreenhouseState) (messageId : String) (toolCallId : String)
    (result : JSONValue) (isError : Option Bool) : GreenhouseState :=
  match st.messages.find? (fun m => m.id == messageId) with
  | none => st
  | some m =>
    if hasToolCall m.content toolCallId then
      let f := fun (m : Message) =>
        { m with content := setToolResult m.content toolCallId result (isError.getD false) }
      { st with messages := updateMessage st.messages messageId f }
    else st

def setMessages (st : GreenhouseState) (messages : List Message) : GreenhouseState :=
  { st with messages := messages, totalMessageCount := messages.length }

def setSessionId (st : GreenhouseState) (sessionId : Option String) : GreenhouseState :=
  { st with sessionId := sessionId }

def setRunning (st : GreenhouseState) (running : Bool) : GreenhouseState :=
  { st with isRunning := running }

def reset (_st : GreenhouseState) : GreenhouseState := initialState

/-- loadSession: totalCount is an optional JS number; the conditional
`totalCount ? totalCount > messages.length : false` treats an absent or
zero totalCount as falsy. -/
def loadSession (st : GreenhouseState) (sessionId : String) (messages : List Message)
    (totalCount : Option Nat) : GreenhouseState :=
  { st with
    sessionId := some sessionId
    messages := messages
    totalMessageCount := totalCount.getD messages.length
    hasMoreHistory :=
      match totalCount with
      | some t => if t == 0 then false else decide (messages.length < t)
      | none => false }

-- ---------------------------------------------------------------------------
-- JSON parsing (model of the platform JSON.parse used by readSSEStream;
-- numbers keep their literal text, and a \u escape becomes the character
-- with that code point when it is a valid scalar value)
-- ---------------------------------------------------------------------------

def isJsonWs (c : Char) : Bool :=
  c == ' ' || c == '\t' || c == '\n' || c == '\r'

def skipWs : List Char → List Char
  | [] => []
  | c :: rest => if isJsonWs c then skipWs rest else c :: rest

def hexVal (c : Char) : Option Nat :=
  if '0' ≤ c ∧ c ≤ '9' then some (c.toNat - '0'.toNat)
  else if 'a' ≤ c ∧ c ≤ 'f' then some (c.toNat - 'a'.toNat + 10)
  else if 'A' ≤ c ∧ c ≤ 'F' then some (c.toNat - 'A'.toNat + 10)
  else none

/-- Parse the body of a JSON string after the opening quote.  Unescaped
control characters are rejected, as JSON.parse does. -/
def parseStringBody : Nat → List Char → String → Option (String × List Char)
  | 0, _, _ => none
  | _ + 1, [], _ => none
  | fuel + 1, c :: rest, acc =>
    if c == '"' then some (acc, rest)
    else if c == '\\' then
      match rest with
      | [] => none
      | e :: rest2 =>
        if e == '"' then parseStringBody fuel rest2 (acc.push '"')
        else if e == '\\' then parseStringBody fuel rest2 (acc.push '\\')
        else if e == '/' then parseStringBody fuel rest2 (acc.push '/')
        else if e == 'b' then parseStringBody fuel rest2 (acc.push (Char.ofNat 8))
        else if e == 'f' then parseStringBody fuel rest2 (acc.push (Char.ofNat 12))
        else if e == 'n' then parseStringBody fuel rest2 (acc.push '\n')
        else if e == 'r' then parseStringBody fuel rest2 (acc.push '\r')
        else if e == 't' then parseStringBody fuel rest2 (acc.push '\t')
        else if e == 'u' then
          match rest2 with
          | h1 :: h2 :: h3 :: h4 :: rest3 =>
            match hexVal h1, hexVal h2, hexVal h3, hexVal h4 with
            | some a, some b, some c2, some d =>
              parseStringBody fuel rest3 (acc.push (Char.ofNat (((a * 16 + b) * 16 + c2) * 16 + d)))
            | _, _, _, _ => none
          | _ => none
        else none
    else if c.toNat < 32 then none
    else parseStringBody fuel rest (acc.push c)

/-- Longest digit run at the front of the input. -/
def takeDigits : List Char → List Char × List Char
  | [] => ([], [])
  | c :: rest =>
    if c.isDigit then
      let (d, r) := takeDigits rest
      (c :: d, r)
    else ([], c :: rest)

/-- Optional fraction part of a JSON number. -/
def parseFracPart : List Char → Option (List Char × List Char)
  | '.' :: r =>
    match takeDigits r with
    | ([], _) => none
    | (d, r2) => some ('.' :: d, r2)
  | s => some ([], s)

/-- Optional exponent part of a JSON number. -/
def parseExpPart : List Char → Option (List Char × List Char)
  | e :: r =>
    if e == 'e' ∨ e == 'E' then
      let (sgn, r2) := match r with
        | '+' :: r3 => (['+'], r3)
        | '-' :: r3 => (['-'], r3)
        | _ => (([] : List Char), r)
      match takeDigits r2 with
      | ([], _) => none
      | (d, r3) => some (e :: (sgn ++ d), r3)
    else some ([], e :: r)
  | [] => some ([], [])

/-- Parse a JSON number literal, returning its raw text.  After a leading
zero no further integer digits are consumed, per the JSON grammar. -/
def parseNumberLit (input : List Char) : Option (String × List Char) :=
  let (sign, s1) := match input with
    | '-' :: r => (['-'], r)
    | _ => (([] : List Char), input)
  match s1 with
  | [] => none
  | c :: rest =>
    if c.isDigit then
      let (intPart, s2) :=
        if c == '0' then ([c], rest)
        else
          let (d, r) := takeDigits rest
          (c :: d, r)
      match parseFracPart s2 with
      | none => none
      | some (fracPart, s3) =>
        match parseExpPart s3 with
        | none => none
        | some (expPart, s4) =>
          some (String.mk (sign ++ intPart ++ fracPart ++ expPart), s4)
    else none

mutual

/-- Parse one JSON value; the input must already be positioned at the value
(leading whitespace skipped by the caller). -/
def parseValue : Nat → List Char → Option (JSONValue × List Char)
  | 0, _ => none
  | fuel + 1, input =>
    match input with
    | [] => none
    | c :: rest =>
      if c == 'n' then
        if rest.take 3 = ['u', 'l', 'l'] then some (.null, rest.drop 3) else none
      else if c == 't' then
        if rest.take 3 = ['r', 'u', 'e'] then some (.bool true, rest.drop 3) else none
      else if c == 'f' then
        if rest.take 4 = ['a', 'l', 's', 'e'] then some (.bool false, rest.drop 4) else none
      else if c == '"' then
        match parseStringBody (rest.length + 1) rest "" with
        | some (s, r) => some (.str s, r)
        | none => none
      else if c == '-' ∨ c.isDigit then
        match parseNumberLit input with
        | some (raw, r) => some (.num raw, r)
        | none => none
      else if c == '[' then
        match skipWs rest with
        | ']' :: r => some (.arr [], r)
        | r => parseArrayItems fuel r []
      else if c == '{' then
        match skipWs rest with
        | '}' :: r => some (.obj [], r)
        | r => parseObjectItems fuel r []
      else none

/-- Parse the remaining items of a non-empty JSON array. -/
def parseArrayItems : Nat → List Char → List JSONValue → Option (JSONValue × List Char)
  | 0, _, _ => none
  | fuel + 1, input, acc =>
    match parseValue fuel input with
    | none => none
    | some (v, rest) =>
      match skipWs rest with
      | ']' :: r => some (.arr (acc ++ [v]), r)
      | ',' :: r => parseArrayItems fuel (skipWs r) (acc ++ [v])
      | _ => none

/-- Parse the remaining members of a non-empty JSON object. -/
def parseObjectItems : Nat → List Char → JSONObject → Option (JSONValue × List Char)
  | 0, _, _ => none
  | fuel + 1, input, acc =>
    match input with
    | '"' :: rest =>
      match parseStringBody (rest.length + 1) rest "" with
      | none => none
      | some (key, r1) =>
        match skipWs r1 with
        | ':' :: r2 =>
          match parseValue fuel (skipWs r2) with
          | none => none
          | some (v, r3) =>
            match skipWs r3 with
            | '}' :: r4 => some (.obj (acc ++ [(key, v)]), r4)
            | ',' :: r4 => parseObjectItems fuel (skipWs r4) (acc ++ [(key, v)])
            | _ => none
        | _ => none
    | _ => none

end

/-- Model of JSON.parse: whole-input parse with surrounding whitespace
allowed; any leftover input is a syntax error. -/
def jsonParse (s : List Char) : Option JSONValue :=
  match parseValue (s.length + 1) (skipWs s) with
  | some (v, rest) => if skipWs rest = [] then some v else none
  | none => none

-- ---------------------------------------------------------------------------
-- SSE decoder (source: readSSEStream in ChatPage.tsx)
-- ---------------------------------------------------------------------------

/-- The fixed frame marker, the 6 characters of the data prefix. -/
def dataMarker : List Char := 'd' :: 'a' :: 't' :: 'a' :: ':' :: ' ' :: []

/-- The synthetic event yielded for the [DONE] sentinel. -/
def doneEvent : JSONValue :=
  .obj [("type", .str "done"), ("data", .null)]

def doneLit : List Char := '[' :: 'D' :: 'O' :: 'N' :: 'E' :: ']' :: []

/-- Events yielded for one complete line: a frame line carrying [DONE]
yields the synthetic done event, any other frame line yields its parsed
payload (or nothing when parsing fails), a non-frame line yields nothing. -/
def processLine (line : List Char) : List JSONValue :=
  if line.take 6 = dataMarker then
    let data := line.drop 6
    if data = doneLit then [doneEvent]
    else
      match jsonParse data with
      | some v => [v]
      | none => []
  else []

/-- Split on newline characters; mirrors String.split("\n") of the source,
so the result is always non-empty and its last element is the trailing
fragment after the final newline. -/
def splitLines : List Char → List (List Char)
  | [] => [[]]
  | c :: rest =>
    if c = '\n' then [] :: splitLines rest
    else
      match splitLines rest with
      | [] => [[c]]
      | l :: ls => (c :: l) :: ls

/-- One loop iteration of readSSEStream: append the chunk to the buffer,
split on newlines, keep the unterminated fragment as the new buffer, and
emit the events of every completed line. -/
def feedChunk (buffer chunk : List Char) : List Char × List JSONValue :=
  let lines := splitLines (buffer ++ chunk)
  (lines.getLastD [], lines.dropLast.flatMap processLine)

def decodeLoop : List Char → List (List Char) → List JSONValue
  | _, [] => []
  | buf, chunk :: rest =>
    let step := feedChunk buf chunk
    step.2 ++ decodeLoop step.1 rest

/-- The whole decoder run: start with an empty buffer, feed every chunk,
and discard whatever fragment is left in the buffer at stream end. -/
def decodeChunks (chunks : List (List Char)) : List JSONValue :=
  decodeLoop [] chunks

-- ---------------------------------------------------------------------------
-- Turn controller (source: onNew / onCancel in ChatPage.tsx).  The decoded
-- events reaching the dispatch switch are modelled in typed form, matching
-- the unchecked cast the source applies to each parsed frame.
-- ---------------------------------------------------------------------------

inductive StreamEvent where
  | textDelta (s : String) : StreamEvent
  | textEv (s : String) : StreamEvent
  | thinkingDelta (s : String) : StreamEvent
  | toolCallEv (tc : ToolCallPart) : StreamEvent
  | toolResultEv (toolCallId : String) (result : JSONValue) (isError : Option Bool) : StreamEvent
  | sessionIdEv (s : String) : StreamEvent
  | contextEv : StreamEvent
  | errorEv (msg : String) : StreamEvent
  | archiveErrorEv (msg : String) : StreamEvent
  | doneEv : StreamEvent

/-- One arm of the dispatch switch.  tool-call events contribute only the
four creation fields (result and isError are not copied from the event);
context, error, archive-error and done events leave the store untouched
(they only log or alert). -/
def dispatchEvent (st : GreenhouseState) (assistantId : String) : StreamEvent → GreenhouseState
  | .thinkingDelta s => appendThinking st assistantId s
  | .textDelta s => appendToAssistant st assistantId s
  | .textEv s => appendToAssistant st assistantId s
  | .toolCallEv tc =>
    addToolCall st assistantId
      { toolCallId := tc.toolCallId, toolName := tc.toolName, args := tc.args
        argsText := tc.argsText, result := none, isError := none }
  | .toolResultEv tcId r ie => updateToolResult st assistantId tcId r ie
  | .sessionIdEv s => setSessionId st (some s)
  | .contextEv => st
  | .errorEv _ => st
  | .archiveErrorEv _ => st
  | .doneEv => st

def dispatchAll (st : GreenhouseState) (assistantId : String) (events : List StreamEvent) :
    GreenhouseState :=
  events.foldl (fun st ev => dispatchEvent st assistantId ev) st

/-- The transport-level fate of one turn, as observed by the try/catch of
onNew: the stream delivered some events and then either finished, or the
fetch failed with a non-success status, or the response carried no body, or
an exception interrupted streaming (aborted tells the AbortError case apart
from a genuine failure). -/
inductive TurnOutcome where
  | ok (events : List StreamEvent) : TurnOutcome
  | httpError (status : Nat) : TurnOutcome
  | noBody : TurnOutcome
  | streamException (events : List StreamEvent) (aborted : Bool) (msg : String) : TurnOutcome

/-- The message of the Error thrown on each transport failure, prefixed as
in the catch block. -/
def errorText : TurnOutcome → String
  | .httpError status => "Error: API error: " ++ toString status
  | .noBody => "Error: No response body"
  | .streamException _ _ msg => "Error: " ++ msg
  | .ok _ => ""

def failsTurn : TurnOutcome → Bool
  | .httpError _ => true
  | .noBody => true
  | .streamException _ aborted _ => !aborted
  | .ok _ => false

/-- The try/catch/finally of onNew after the request is opened: dispatch
every delivered event; on a non-abort failure append the synthesized error
text to the assistant placeholder; in every case finish with
isRunning = false. -/
def runTurn (st : GreenhouseState) (assistantId : String) : TurnOutcome → GreenhouseState
  | .ok events => setRunning (dispatchAll st assistantId events) false
  | .httpError status =>
    setRunning (appendToAssistant st assistantId (errorText (.httpError status))) false
  | .noBody => setRunning (appendToAssistant st assistantId (errorText .noBody)) false
  | .streamException events aborted msg =>
    let st1 := dispatchAll st assistantId events
    if aborted then setRunning st1 false
    else setRunning (appendToAssistant st1 assistantId (errorText (.streamException events aborted msg))) false

/-- One accepted user submit, from the optimistic commit onward: the user
message and the empty assistant placeholder are committed and isRunning is
set before the request; then the turn runs to its outcome.  The text is the
already-assembled message text (file references prepended by the caller)
and the ids and timestamps are the generated values. -/
def onNewTurn (st : GreenhouseState) (userId : String) (userCreatedAt : Nat)
    (text : String) (attachments : Option (List Attachment))
    (assistantId : String) (assistantCreatedAt : Nat) (outcome : TurnOutcome) :
    GreenhouseState :=
  let st1 := addUserMessage st userId userCreatedAt text attachments
  let st2 := addAssistantPlaceholder st1 assistantId assistantCreatedAt
  let st3 := setRunning st2 true
  runTurn st3 assistantId outcome

/-- onCancel's effect on the store: only isRunning is forced to false (the
abort and the fire-and-forget interrupt request do not touch the store). -/
def onCancel (st : GreenhouseState) : GreenhouseState :=
  setRunning st false

-- ---------------------------------------------------------------------------
-- Helper notions used by the claims
-- ---------------------------------------------------------------------------

/-- Concatenation of a list of strings, left to right. -/
def concatAll : List String → String
  | [] => ""
  | s :: rest => s ++ concatAll rest

/-- Repeated appendToAssistant with a sequence of payloads. -/
def textFold (st : GreenhouseState) (messageId : String) (payloads : List String) :
    GreenhouseState :=
  payloads.foldl (fun st s => appendToAssistant st messageId s) st

/-- The three placeholder-filling operations whose interleaving C2 ranges
over. -/
inductive StreamOp where
  | textOp (s : String) : StreamOp
  | thinkOp (s : String) : StreamOp
  | toolOp (tc : ToolCallPart) : StreamOp

def applyOp (st : GreenhouseState) (messageId : String) : StreamOp → GreenhouseState
  | .textOp s => appendToAssistant st messageId s
  | .thinkOp s => appendThinking st messageId s
  | .toolOp tc => addToolCall st messageId tc

def applyOps (st : GreenhouseState) (messageId : String) (ops : List StreamOp) :
    GreenhouseState :=
  ops.foldl (fun st op => applyOp st messageId op) st

/-- The content-level effect of one StreamOp on the target message. -/
def applyOpContent (content : List ContentPart) : StreamOp → List ContentPart
  | .textOp s => appendTextPart content s
  | .thinkOp s => appendThinkingPart content s
  | .toolOp tc => content ++ [ContentPart.toolCall tc]

def foldOpsContent (content : List ContentPart) (ops : List StreamOp) : List ContentPart :=
  ops.foldl applyOpContent content

/-- The thinking payloads of an op sequence, in arrival order. -/
def thinkTexts (ops : List StreamOp) : List String :=
  ops.filterMap (fun op => match op with | .thinkOp s => some s | _ => none)

/-- The six message-level store operations of C7, with their target id. -/
inductive StoreOp where
  | addUser (id : String) (createdAt : Nat) (content : String)
      (atts : Option (List Attachment)) : StoreOp
  | addPlaceholder (id : String) (createdAt : Nat) : StoreOp
  | appendTextTo (id : String) (s : String) : StoreOp
  | appendThinkTo (id : String) (s : String) : StoreOp
  | addToolTo (id : String) (tc : ToolCallPart) : StoreOp
  | updateToolOn (id : String) (tcId : String) (r : JSONValue) (ie : Option Bool) : StoreOp

def StoreOp.targetId : StoreOp → String
  | .addUser id _ _ _ => id
  | .addPlaceholder id _ => id
  | .appendTextTo id _ => id
  | .appendThinkTo id _ => id
  | .addToolTo id _ => id
  | .updateToolOn id _ _ _ => id

def StoreOp.applyTo (st : GreenhouseState) : StoreOp → GreenhouseState
  | .addUser id ca c atts => addUserMessage st id ca c atts
  | .addPlaceholder id ca => addAssistantPlaceholder st id ca
  | .appendTextTo id s => appendToAssistant st id s
  | .appendThinkTo id s => appendThinking st id s
  | .addToolTo id tc => addToolCall st id tc
  | .updateToolOn id tcId r ie => updateToolResult st id tcId r ie

-- ---------------------------------------------------------------------------
-- Basic lemmas about the store helpers
-- ---------------------------------------------------------------------------

theorem find?_append_last (pre : List Message) (m : Message) (id : String)
    (hfresh : ∀ m2 ∈ pre, m2.id ≠ id) (hm : m.id = id) :
    (pre ++ [m]).find? (fun x => x.id == id) = some m := by
  induction pre with
  | nil => simp [List.find?, hm]
  | cons p pre ih =>
    have hp : (p.id == id) = false := by
      simp only [beq_eq_false_iff_ne, ne_eq]
      exact hfresh p (by simp)
    simp only [List.cons_append, List.find?, hp]
    exact ih (fun m2 hm2 => hfresh m2 (by simp [hm2]))

theorem updateMessage_append_last (pre : List Message) (m : Message) (id : String)
    (f : Message → Message)
    (hfresh : ∀ m2 ∈ pre, m2.id ≠ id) (hm : m.id = id) :
    updateMessage (pre ++ [m]) id f = pre ++ [f m] := by
  induction pre with
  | nil => simp [updateMessage, hm]
  | cons p pre ih =>
    have hp : (p.id == id) = false := by
      simp only [beq_eq_false_iff_ne, ne_eq]
      exact hfresh p (by simp)
    simp only [List.cons_append, updateMessage, hp, Bool.false_eq_true, if_false]
    exact congrArg (List.cons p) (ih (fun m2 hm2 => hfresh m2 (by simp [hm2])))

theorem updateMessage_cases (msgs : List Message) (mid : String) (f : Message → Message) :
    updateMessage msgs mid f = msgs ∨
    ∃ i m, msgs[i]? = some m ∧ m.id = mid ∧ updateMessage msgs mid f = msgs.set i (f m) := by
  induction msgs with
  | nil => exact Or.inl rfl
  | cons p rest ih =>
    by_cases hp : p.id = mid
    · refine Or.inr ⟨0, p, by simp, hp, ?_⟩
      simp [updateMessage, hp]
    · have hbeq : (p.id == mid) = false := by simp [hp]
      rcases ih with h | ⟨i, m, hget, hid, heq⟩
      · exact Or.inl (by simp [updateMessage, hbeq, h])
      · refine Or.inr ⟨i + 1, m, by simpa using hget, hid, ?_⟩
        simp [updateMessage, hbeq, heq]

-- ---------------------------------------------------------------------------
-- Lemmas about content-part accumulation
-- ---------------------------------------------------------------------------

theorem appendTextPart_nil (s : String) :
    appendTextPart [] s = [ContentPart.text s] := rfl

theorem appendTextPart_text_single (t s : String) :
    appendTextPart [ContentPart.text t] s = [ContentPart.text (t ++ s)] := by
  simp [appendTextPart]

theorem appendTextPart_ne_nil (content : List ContentPart) (s : String) :
    appendTextPart content s ≠ [] := by
  unfold appendTextPart
  match h : content.getLast? with
  | some (ContentPart.text t) => simp [h]
  | some (ContentPart.thinking t) => simp [h]
  | some (ContentPart.image i) => simp [h]
  | some (ContentPart.toolCall tc) => simp [h]
  | none => simp [h]

theorem appendTextPart_getLast (content : List ContentPart) (s : String) :
    ∃ t0, (appendTextPart content s).getLast? = some (ContentPart.text (t0 ++ s)) := by
  unfold appendTextPart
  match h : content.getLast? with
  | some (ContentPart.text t) => exact ⟨t, by simp [h]⟩
  | some (ContentPart.thinking t) => exact ⟨"", by simp [h]⟩
  | some (ContentPart.image i) => exact ⟨"", by simp [h]⟩
  | some (ContentPart.toolCall tc) => exact ⟨"", by simp [h]⟩
  | none => exact ⟨"", by simp [h]⟩

theorem hasThinkingPart_append (xs ys : List ContentPart) :
    hasThinkingPart (xs ++ ys) = (hasThinkingPart xs || hasThinkingPart ys) := by
  simp [hasThinkingPart, List.any_append]

theorem hasThinkingPart_appendTextPart (content : List ContentPart) (s : String) :
    hasThinkingPart (appendTextPart content s) = hasThinkingPart content := by
  unfold appendTextPart
  match h : content.getLast? with
  | some (ContentPart.text t) =>
    have hne : content ≠ [] := by
      intro hc; rw [hc] at h; simp at h
    have hdecomp := List.dropLast_append_getLast hne
    have hlast : content.getLast hne = ContentPart.text t := by
      have := List.getLast?_eq_getLast content hne
      rw [h] at this
      exact (Option.some.injEq _ _).mp this.symm
    conv_rhs => rw [← hdecomp]
    rw [hlast]
    simp [hasThinkingPart_append, hasThinkingPart, isThinkingPart]
  | some (ContentPart.thinking t) => simp [h, hasThinkingPart_append, hasThinkingPart, isThinkingPart]
  | some (ContentPart.image i) => simp [h, hasThinkingPart_append, hasThinkingPart, isThinkingPart]
  | some (ContentPart.toolCall tc) => simp [h, hasThinkingPart_append, hasThinkingPart, isThinkingPart]
  | none => simp [h, hasThinkingPart_append, hasThinkingPart, isThinkingPart]

theorem foldl_appendTextPart_text (ts : List String) (acc : String) :
    ts.foldl appendTextPart [ContentPart.text acc] =
      [ContentPart.text (acc ++ concatAll ts)] := by
  induction ts generalizing acc with
  | nil => simp [concatAll, String.append_empty]
  | cons s ts ih =>
    simp only [List.foldl_cons, appendTextPart_text_single, concatAll]
    rw [ih, String.append_assoc]

theorem foldl_appendTextPart_nil (ts : List String) (hne : ts ≠ []) :
    ts.foldl appendTextPart [] = [ContentPart.text (concatAll ts)] := by
  match ts with
  | [] => exact absurd rfl hne
  | s :: ts =>
    simp only [List.foldl_cons, appendTextPart_nil]
    have := foldl_appendTextPart_text ts s
    rw [this, concatAll]

theorem extendThinkingPart_head (acc s : String) (rest : List ContentPart) :
    extendThinkingPart (ContentPart.thinking acc :: rest) s =
      ContentPart.thinking (acc ++ s) :: rest := rfl

theorem appendTextPart_thinking_head (acc s : String) (rest : List ContentPart)
    (hrest : hasThinkingPart rest = false) :
    ∃ rest2, appendTextPart (ContentPart.thinking acc :: rest) s =
        ContentPart.thinking acc :: rest2 ∧ hasThinkingPart rest2 = false := by
  match rest with
  | [] =>
    refine ⟨[ContentPart.text s], ?_, by simp [hasThinkingPart, isThinkingPart]⟩
    simp [appendTextPart]
  | r :: rs =>
    unfold appendTextPart
    rw [List.getLast?_cons_cons]
    match h : (r :: rs).getLast? with
    | some (ContentPart.text t) =>
      have hne : r :: rs ≠ [] := by simp
      have hdecomp := List.dropLast_append_getLast hne
      have hlast : (r :: rs).getLast hne = ContentPart.text t := by
        have := List.getLast?_eq_getLast (r :: rs) hne
        rw [h] at this
        exact (Option.some.injEq _ _).mp this.symm
      refine ⟨(r :: rs).dropLast ++ [ContentPart.text (t ++ s)], ?_, ?_⟩
      · simp [List.dropLast_cons_of_ne_nil]
      · rw [hasThinkingPart_append]
        have hdrop : hasThinkingPart (r :: rs).dropLast = false := by
          have := congrArg hasThinkingPart hdecomp
          rw [hasThinkingPart_append, hlast] at this
          rw [hrest] at this
          cases hh : hasThinkingPart (r :: rs).dropLast with
          | false => rfl
          | true => rw [hh] at this; simp at this
        rw [hdrop]
        simp [hasThinkingPart, isThinkingPart]
    | some (ContentPart.thinking t) =>
      exact ⟨r :: rs ++ [ContentPart.text s], by simp, by
        rw [hasThinkingPart_append] at *
        simp_all [hasThinkingPart, isThinkingPart]⟩
    | some (ContentPart.image i) =>
      exact ⟨r :: rs ++ [ContentPart.text s], by simp, by
        rw [hasThinkingPart_append] at *
        simp_all [hasThinkingPart, isThinkingPart]⟩
    | some (ContentPart.toolCall tc) =>
      exact ⟨r :: rs ++ [ContentPart.text s], by simp, by
        rw [hasThinkingPart_append] at *
        simp_all [hasThinkingPart, isThinkingPart]⟩
    | none => simp at h

theorem foldOps_started (ops : List StreamOp) (acc : String) (rest : List ContentPart)
    (hrest : hasThinkingPart rest = false) :
    ∃ rest2, foldOpsContent (ContentPart.thinking acc :: rest) ops =
        ContentPart.thinking (acc ++ concatAll (thinkTexts ops)) :: rest2 ∧
      hasThinkingPart rest2 = false := by
  induction ops generalizing acc rest with
  | nil =>
    exact ⟨rest, by simp [foldOpsContent, thinkTexts, concatAll, String.append_empty], hrest⟩
  | cons op ops ih =>
    match op with
    | .thinkOp s =>
      have hhead : hasThinkingPart (ContentPart.thinking acc :: rest) = true := by
        simp [hasThinkingPart, isThinkingPart]
      have hstep : applyOpContent (ContentPart.thinking acc :: rest) (.thinkOp s) =
          ContentPart.thinking (acc ++ s) :: rest := by
        simp [applyOpContent, appendThinkingPart, hhead, extendThinkingPart_head]
      have hfold : foldOpsContent (ContentPart.thinking acc :: rest) (StreamOp.thinkOp s :: ops) =
          foldOpsContent (ContentPart.thinking (acc ++ s) :: rest) ops := by
        simp [foldOpsContent, hstep]
      rcases ih (acc ++ s) rest hrest with ⟨rest2, heq, hr2⟩
      refine ⟨rest2, ?_, hr2⟩
      rw [hfold, heq]
      have : thinkTexts (StreamOp.thinkOp s :: ops) = s :: thinkTexts ops := by
        simp [thinkTexts]
      rw [this, concatAll, String.append_assoc]
    | .textOp s =>
      rcases appendTextPart_thinking_head acc s rest hrest with ⟨rest1, heq1, hr1⟩
      have hfold : foldOpsContent (ContentPart.thinking acc :: rest) (StreamOp.textOp s :: ops) =
          foldOpsContent (ContentPart.thinking acc :: rest1) ops := by
        simp [foldOpsContent, applyOpContent, heq1]
      rcases ih acc rest1 hr1 with ⟨rest2, heq, hr2⟩
      refine ⟨rest2, ?_, hr2⟩
      rw [hfold, heq]
      have : thinkTexts (StreamOp.textOp s :: ops) = thinkTexts ops := by
        simp [thinkTexts]
      rw [this]
    | .toolOp tc =>
      have hstep : applyOpContent (ContentPart.thinking acc :: rest) (.toolOp tc) =
          ContentPart.thinking acc :: (rest ++ [ContentPart.toolCall tc]) := by
        simp [applyOpContent]
      have hr1 : hasThinkingPart (rest ++ [ContentPart.toolCall tc]) = false := by
        rw [hasThinkingPart_append, hrest]
        simp [hasThinkingPart, isThinkingPart]
      have hfold : foldOpsContent (ContentPart.thinking acc :: rest) (StreamOp.toolOp tc :: ops) =
          foldOpsContent (ContentPart.thinking acc :: (rest ++ [ContentPart.toolCall tc])) ops := by
        simp [foldOpsContent, hstep]
      rcases ih acc (rest ++ [ContentPart.toolCall tc]) hr1 with ⟨rest2, heq, hr2⟩
      refine ⟨rest2, ?_, hr2⟩
      rw [hfold, heq]
      have : thinkTexts (StreamOp.toolOp tc :: ops) = thinkTexts ops := by
        simp [thinkTexts]
      rw [this]

theorem foldOps_notStarted (ops : List StreamOp) (content : List ContentPart)
    (hc : hasThinkingPart content = false) :
    (thinkTexts ops = [] ∧ hasThinkingPart (foldOpsContent content ops) = false) ∨
    (∃ rest2, foldOpsContent content ops =
        ContentPart.thinking (concatAll (thinkTexts ops)) :: rest2 ∧
      hasThinkingPart rest2 = false) := by
  induction ops generalizing content with
  | nil => exact Or.inl ⟨rfl, hc⟩
  | cons op ops ih =>
    match op with
    | .textOp s =>
      have hc1 : hasThinkingPart (appendTextPart content s) = false := by
        rw [hasThinkingPart_appendTextPart]; exact hc
      have hfold : foldOpsContent content (StreamOp.textOp s :: ops) =
          foldOpsContent (appendTextPart content s) ops := by
        simp [foldOpsContent, applyOpContent]
      have htt : thinkTexts (StreamOp.textOp s :: ops) = thinkTexts ops := by
        simp [thinkTexts]
      rw [hfold, htt]
      exact ih (appendTextPart content s) hc1
    | .toolOp tc =>
      have hc1 : hasThinkingPart (content ++ [ContentPart.toolCall tc]) = false := by
        rw [hasThinkingPart_append, hc]
        simp [hasThinkingPart, isThinkingPart]
      have hfold : foldOpsContent content (StreamOp.toolOp tc :: ops) =
          foldOpsContent (content ++ [ContentPart.toolCall tc]) ops := by
        simp [foldOpsContent, applyOpContent]
      have htt : thinkTexts (StreamOp.toolOp tc :: ops) = thinkTexts ops := by
        simp [thinkTexts]
      rw [hfold, htt]
      exact ih (content ++ [ContentPart.toolCall tc]) hc1
    | .thinkOp s =>
      have hstep : applyOpContent content (.thinkOp s) = ContentPart.thinking s :: content := by
        simp [applyOpContent, appendThinkingPart, hc]
      have hfold : foldOpsContent content (StreamOp.thinkOp s :: ops) =
          foldOpsContent (ContentPart.thinking s :: content) ops := by
        simp [foldOpsContent, hstep]
      rcases foldOps_started ops s content hc with ⟨rest2, heq, hr2⟩
      refine Or.inr ⟨rest2, ?_, hr2⟩
      rw [hfold, heq]
      have : thinkTexts (StreamOp.thinkOp s :: ops) = s :: thinkTexts ops := by
        simp [thinkTexts]
      rw [this, concatAll]

-- ---------------------------------------------------------------------------
-- Localization: when the target assistant message is the last message and
-- its id appears nowhere earlier, each action rewrites exactly that message
-- ---------------------------------------------------------------------------

theorem appendToAssistant_local (st : GreenhouseState) (pre : List Message) (m : Message)
    (id s : String) (hmsgs : st.messages = pre ++ [m])
    (hfresh : ∀ m2 ∈ pre, m2.id ≠ id) (hid : m.id = id) (hrole : m.role = Role.assistant) :
    appendToAssistant st id s =
      { st with messages := pre ++ [{ m with content := appendTextPart m.content s }] } := by
  unfold appendToAssistant
  rw [hmsgs, find?_append_last pre m id hfresh hid]
  simp only [hrole, if_true]
  rw [updateMessage_append_last pre m id
    (fun m => { m with content := appendTextPart m.content s }) hfresh hid]
  rw [hrole]

theorem appendThinking_local (st : GreenhouseState) (pre : List Message) (m : Message)
    (id s : String) (hmsgs : st.messages = pre ++ [m])
    (hfresh : ∀ m2 ∈ pre, m2.id ≠ id) (hid : m.id = id) (hrole : m.role = Role.assistant) :
    appendThinking st id s =
      { st with messages := pre ++ [{ m with content := appendThinkingPart m.content s }] } := by
  unfold appendThinking
  rw [hmsgs, find?_append_last pre m id hfresh hid]
  simp only [hrole, if_true]
  rw [updateMessage_append_last pre m id
    (fun m => { m with content := appendThinkingPart m.content s }) hfresh hid]
  rw [hrole]

theorem addToolCall_local (st : GreenhouseState) (pre : List Message) (m : Message)
    (id : String) (tc : ToolCallPart) (hmsgs : st.messages = pre ++ [m])
    (hfresh : ∀ m2 ∈ pre, m2.id ≠ id) (hid : m.id = id) (hrole : m.role = Role.assistant) :
    addToolCall st id tc =
      { st with messages := pre ++ [{ m with content := m.content ++ [ContentPart.toolCall tc] }] } := by
  unfold addToolCall
  rw [hmsgs, find?_append_last pre m id hfresh hid]
  simp only [hrole, if_true]
  rw [updateMessage_append_last pre m id
    (fun m => { m with content := m.content ++ [ContentPart.toolCall tc] }) hfresh hid]
  rw [hrole]

theorem applyOp_local (st : GreenhouseState) (pre : List Message) (m : Message)
    (id : String) (op : StreamOp) (hmsgs : st.messages = pre ++ [m])
    (hfresh : ∀ m2 ∈ pre, m2.id ≠ id) (hid : m.id = id) (hrole : m.role = Role.assistant) :
    applyOp st id op =
      { st with messages := pre ++ [{ m with content := applyOpContent m.content op }] } := by
  cases op with
  | textOp s => exact appendToAssistant_local st pre m id s hmsgs hfresh hid hrole
  | thinkOp s => exact appendThinking_local st pre m id s hmsgs hfresh hid hrole
  | toolOp tc => exact addToolCall_local st pre m id tc hmsgs hfresh hid hrole

theorem applyOps_local (ops : List StreamOp) (st : GreenhouseState) (pre : List Message)
    (m : Message) (id : String) (hmsgs : st.messages = pre ++ [m])
    (hfresh : ∀ m2 ∈ pre, m2.id ≠ id) (hid : m.id = id) (hrole : m.role = Role.assistant) :
    applyOps st id ops =
      { st with messages := pre ++ [{ m with content := foldOpsContent m.content ops }] } := by
  induction ops generalizing st m with
  | nil =>
    show st = _
    have h1 : foldOpsContent m.content [] = m.content := rfl
    rw [h1]
    have h2 : ({ id := m.id, role := m.role, content := m.content, createdAt := m.createdAt } : Message) = m := rfl
    rw [h2, ← hmsgs]
  | cons op ops ih =>
    show applyOps (applyOp st id op) id ops = _
    have h1 := applyOp_local st pre m id op hmsgs hfresh hid hrole
    have h2 := ih (applyOp st id op)
      { m with content := applyOpContent m.content op }
      (by rw [h1]) hid hrole
    rw [h2, h1]
    rfl

theorem updateToolResult_local (st : GreenhouseState) (pre : List Message) (m : Message)
    (id tcId : String) (r : JSONValue) (ie : Option Bool) (hmsgs : st.messages = pre ++ [m])
    (hfresh : ∀ m2 ∈ pre, m2.id ≠ id) (hid : m.id = id) :
    ∃ c, (updateToolResult st id tcId r ie).messages = pre ++ [{ m with content := c }] := by
  unfold updateToolResult
  rw [hmsgs, find?_append_last pre m id hfresh hid]
  by_cases h : hasToolCall m.content tcId
  · refine ⟨setToolResult m.content tcId r (ie.getD false), ?_⟩
    simp only [h, if_true]
    rw [updateMessage_append_last pre m id
      (fun m => { m with content := setToolResult m.content tcId r (ie.getD false) }) hfresh hid]
  · refine ⟨m.content, ?_⟩
    have hb : hasToolCall m.content tcId = false := by
      cases hh : hasToolCall m.content tcId with
      | false => rfl
      | true => exact absurd hh h
    simp only [hb, Bool.false_eq_true, if_false]
    rw [show ({ m with content := m.content } : Message) = m from rfl]
    exact hmsgs

theorem dispatchEvent_local (st : GreenhouseState) (pre : List Message) (m : Message)
    (id : String) (ev : StreamEvent) (hmsgs : st.messages = pre ++ [m])
    (hfresh : ∀ m2 ∈ pre, m2.id ≠ id) (hid : m.id = id) (hrole : m.role = Role.assistant) :
    ∃ c, (dispatchEvent st id ev).messages = pre ++ [{ m with content := c }] := by
  cases ev with
  | thinkingDelta s =>
    refine ⟨appendThinkingPart m.content s, ?_⟩
    show (appendThinking st id s).messages = _
    rw [appendThinking_local st pre m id s hmsgs hfresh hid hrole]
  | textDelta s =>
    refine ⟨appendTextPart m.content s, ?_⟩
    show (appendToAssistant st id s).messages = _
    rw [appendToAssistant_local st pre m id s hmsgs hfresh hid hrole]
  | textEv s =>
    refine ⟨appendTextPart m.content s, ?_⟩
    show (appendToAssistant st id s).messages = _
    rw [appendToAssistant_local st pre m id s hmsgs hfresh hid hrole]
  | toolCallEv tc =>
    refine ⟨m.content ++ [ContentPart.toolCall
      { toolCallId := tc.toolCallId, toolName := tc.toolName, args := tc.args
        argsText := tc.argsText, result := none, isError := none }], ?_⟩
    show (addToolCall st id
      { toolCallId := tc.toolCallId, toolName := tc.toolName, args := tc.args
        argsText := tc.argsText, result := none, isError := none }).messages = _
    rw [addToolCall_local st pre m id _ hmsgs hfresh hid hrole]
  | toolResultEv tcId r ie =>
    exact updateToolResult_local st pre m id tcId r ie hmsgs hfresh hid
  | sessionIdEv s =>
    refine ⟨m.content, ?_⟩
    have : ({ m with content := m.content } : Message) = m := rfl
    rw [this]
    exact hmsgs
  | contextEv =>
    exact ⟨m.content, by rw [show ({ m with content := m.content } : Message) = m from rfl]; exact hmsgs⟩
  | errorEv msg =>
    exact ⟨m.content, by rw [show ({ m with content := m.content } : Message) = m from rfl]; exact hmsgs⟩
  | archiveErrorEv msg =>
    exact ⟨m.content, by rw [show ({ m with content := m.content } : Message) = m from rfl]; exact hmsgs⟩
  | doneEv =>
    exact ⟨m.content, by rw [show ({ m with content := m.content } : Message) = m from rfl]; exact hmsgs⟩

theorem dispatchAll_local (evs : List StreamEvent) (st : GreenhouseState) (pre : List Message)
    (m : Message) (id : String) (hmsgs : st.messages = pre ++ [m])
    (hfresh : ∀ m2 ∈ pre, m2.id ≠ id) (hid : m.id = id) (hrole : m.role = Role.assistant) :
    ∃ c, (dispatchAll st id evs).messages = pre ++ [{ m with content := c }] := by
  induction evs generalizing st m with
  | nil =>
    refine ⟨m.content, ?_⟩
    rw [show ({ m with content := m.content } : Message) = m from rfl]
    exact hmsgs
  | cons ev evs ih =>
    rcases dispatchEvent_local st pre m id ev hmsgs hfresh hid hrole with ⟨c, hc⟩
    rcases ih (dispatchEvent st id ev) { m with content := c } hc hid hrole with ⟨c2, hc2⟩
    exact ⟨c2, hc2⟩

-- ---------------------------------------------------------------------------
-- Decoder lemmas: line splitting and buffering across chunk boundaries
-- ---------------------------------------------------------------------------

theorem splitLines_ne_nil (s : List Char) : splitLines s ≠ [] := by
  match s with
  | [] => simp [splitLines]
  | c :: rest =>
    unfold splitLines
    by_cases hc : c = '\n'
    · simp [hc]
    · simp only [hc, if_false]
      match h : splitLines rest with
      | [] => simp
      | l :: ls => simp

theorem getLastD_single {α : Type} (x d : α) : [x].getLastD d = x := rfl

theorem getLastD_cons_of_ne_nil {α : Type} (x : α) (l : List α) (h : l ≠ []) (d : α) :
    (x :: l).getLastD d = l.getLastD d := by
  rw [List.getLastD_cons, List.getLastD_eq_getLast? x l, List.getLastD_eq_getLast? d l,
    List.getLast?_eq_getLast l h]
  rfl

theorem headI_cons_tail {α : Type} [Inhabited α] (l : List α) (h : l ≠ []) :
    l.headI :: l.tail = l := by
  cases l with
  | nil => exact absurd rfl h
  | cons a t => rfl

theorem splitLines_cons_newline (rest : List Char) :
    splitLines ('\n' :: rest) = [] :: splitLines rest := by
  simp [splitLines]

theorem splitLines_cons_other0 (c : Char) (rest : List Char) (hc : c ≠ '\n')
    (l : List Char) (ls : List (List Char)) (h : splitLines rest = l :: ls) :
    splitLines (c :: rest) = (c :: l) :: ls := by
  unfold splitLines
  simp only [hc, if_false, h]

theorem splitLines_cons_other (c : Char) (rest : List Char) (hc : c ≠ '\n') :
    splitLines (c :: rest) =
      (c :: (splitLines rest).headI) :: (splitLines rest).tail := by
  match h : splitLines rest with
  | [] => exact absurd h (splitLines_ne_nil rest)
  | l :: ls =>
    rw [splitLines_cons_other0 c rest hc l ls h]
    simp

theorem splitLines_append (a b : List Char) :
    splitLines (a ++ b) =
      (splitLines a).dropLast ++
        (((splitLines a).getLastD [] ++ (splitLines b).headI) :: (splitLines b).tail) := by
  induction a with
  | nil =>
    rw [List.nil_append]
    show splitLines b =
      [[]].dropLast ++ (([[]].getLastD [] ++ (splitLines b).headI) :: (splitLines b).tail)
    rw [getLastD_single, List.dropLast_single, List.nil_append, List.nil_append,
      headI_cons_tail (splitLines b) (splitLines_ne_nil b)]
  | cons c a ih =>
    by_cases hc : c = '\n'
    · subst hc
      rw [List.cons_append, splitLines_cons_newline, splitLines_cons_newline, ih]
      rw [List.dropLast_cons_of_ne_nil (splitLines_ne_nil a),
        getLastD_cons_of_ne_nil [] (splitLines a) (splitLines_ne_nil a) [],
        List.cons_append]
    · rw [List.cons_append]
      match h : splitLines a with
      | [] => exact absurd h (splitLines_ne_nil a)
      | [x] =>
        have hab : splitLines (a ++ b) =
            ((x ++ (splitLines b).headI) :: (splitLines b).tail) := by
          rw [ih, h, List.dropLast_single, getLastD_single, List.nil_append]
        rw [splitLines_cons_other0 c (a ++ b) hc _ _ hab]
        rw [splitLines_cons_other0 c a hc x [] h]
        rw [List.dropLast_single, getLastD_single, List.nil_append, List.cons_append]
      | x :: y :: ys =>
        have hab : splitLines (a ++ b) =
            (x :: ((y :: ys).dropLast ++
              (((y :: ys).getLastD [] ++ (splitLines b).headI) :: (splitLines b).tail))) := by
          rw [ih, h, List.dropLast_cons_of_ne_nil (by simp : y :: ys ≠ ([] : List (List Char))),
            getLastD_cons_of_ne_nil x (y :: ys) (by simp) [], List.cons_append]
        rw [splitLines_cons_other0 c (a ++ b) hc _ _ hab]
        rw [splitLines_cons_other0 c a hc x (y :: ys) h]
        rw [List.dropLast_cons_of_ne_nil (by simp : y :: ys ≠ ([] : List (List Char))),
          getLastD_cons_of_ne_nil (c :: x) (y :: ys) (by simp) [], List.cons_append]

theorem splitLines_no_newline (s : List Char) (h : '\n' ∉ s) : splitLines s = [s] := by
  induction s with
  | nil => rfl
  | cons c rest ih =>
    have hc : c ≠ '\n' := fun he => h (by simp [he])
    have hr : splitLines rest = [rest] := ih (fun hm => h (by simp [hm]))
    rw [splitLines_cons_other0 c rest hc rest [] hr]

theorem splitLines_getLastD_no_newline (s : List Char) :
    '\n' ∉ (splitLines s).getLastD [] := by
  induction s with
  | nil => simp [splitLines]
  | cons c rest ih =>
    by_cases hc : c = '\n'
    · subst hc
      rw [splitLines_cons_newline,
        getLastD_cons_of_ne_nil [] (splitLines rest) (splitLines_ne_nil rest) []]
      exact ih
    · match h : splitLines rest with
      | [] => exact absurd h (splitLines_ne_nil rest)
      | [x] =>
        rw [splitLines_cons_other0 c rest hc x [] h, getLastD_single]
        rw [h, getLastD_single] at ih
        intro hmem
        rcases List.mem_cons.mp hmem with h1 | h2
        · exact hc h1.symm
        · exact ih h2
      | x :: y :: ys =>
        rw [splitLines_cons_other0 c rest hc x (y :: ys) h,
          getLastD_cons_of_ne_nil (c :: x) (y :: ys) (by simp) []]
        rw [h, getLastD_cons_of_ne_nil x (y :: ys) (by simp) []] at ih
        exact ih

theorem decodeLoop_eq (chunks : List (List Char)) (buf : List Char) (hbuf : '\n' ∉ buf) :
    decodeLoop buf chunks =
      ((splitLines (buf ++ chunks.flatten)).dropLast).flatMap processLine := by
  induction chunks generalizing buf with
  | nil =>
    rw [show (([] : List (List Char)).flatten) = [] from rfl, List.append_nil,
      splitLines_no_newline buf hbuf, List.dropLast_single]
    rfl
  | cons c rest ih =>
    have hbuf2 : '\n' ∉ (splitLines (buf ++ c)).getLastD [] :=
      splitLines_getLastD_no_newline (buf ++ c)
    have hstep : decodeLoop buf (c :: rest) =
        (splitLines (buf ++ c)).dropLast.flatMap processLine ++
          decodeLoop ((splitLines (buf ++ c)).getLastD []) rest := rfl
    rw [hstep, ih _ hbuf2]
    rw [List.flatten_cons, ← List.append_assoc]
    rw [splitLines_append (buf ++ c) rest.flatten]
    rw [List.dropLast_append_of_ne_nil _ (by simp)]
    rw [List.flatMap_append]
    congr 1
    rw [splitLines_append ((splitLines (buf ++ c)).getLastD []) rest.flatten]
    rw [splitLines_no_newline _ hbuf2, List.dropLast_single, getLastD_single, List.nil_append]

theorem decodeChunks_eq (chunks : List (List Char)) :
    decodeChunks chunks = ((splitLines chunks.flatten).dropLast).flatMap processLine := by
  have h := decodeLoop_eq chunks [] (by simp)
  rw [List.nil_append] at h
  exact h

-- ---------------------------------------------------------------------------
-- Lemmas about tool results
-- ---------------------------------------------------------------------------

theorem setToolResult_append (pre post : List ContentPart) (tc : ToolCallPart)
    (tcId : String) (r : JSONValue) (ie : Bool)
    (hpre : hasToolCall pre tcId = false) (htc : tc.toolCallId = tcId) :
    setToolResult (pre ++ ContentPart.toolCall tc :: post) tcId r ie =
      pre ++ ContentPart.toolCall { tc with result := some r, isError := some ie } :: post := by
  induction pre with
  | nil => simp [setToolResult, htc]
  | cons p pre ih =>
    rw [hasToolCall, List.any_cons, Bool.or_eq_false_iff] at hpre
    obtain ⟨hp, hrest⟩ := hpre
    match p with
    | ContentPart.text t =>
      rw [List.cons_append]
      show ContentPart.text t :: setToolResult (pre ++ ContentPart.toolCall tc :: post) tcId r ie = _
      rw [ih hrest, List.cons_append]
    | ContentPart.thinking t =>
      rw [List.cons_append]
      show ContentPart.thinking t :: setToolResult (pre ++ ContentPart.toolCall tc :: post) tcId r ie = _
      rw [ih hrest, List.cons_append]
    | ContentPart.image i =>
      rw [List.cons_append]
      show ContentPart.image i :: setToolResult (pre ++ ContentPart.toolCall tc :: post) tcId r ie = _
      rw [ih hrest, List.cons_append]
    | ContentPart.toolCall tc2 =>
      have hne : (tc2.toolCallId == tcId) = false := hp
      rw [List.cons_append]
      show setToolResult (ContentPart.toolCall tc2 :: (pre ++ ContentPart.toolCall tc :: post)) tcId r ie = _
      rw [setToolResult]
      simp only [hne, Bool.false_eq_true, if_false]
      rw [ih hrest, List.cons_append]

theorem countP_thinking_head (acc : String) (rest : List ContentPart)
    (hrest : hasThinkingPart rest = false) :
    (ContentPart.thinking acc :: rest).countP isThinkingPart = 1 := by
  rw [List.countP_cons]
  have h0 : rest.countP isThinkingPart = 0 := by
    rw [List.countP_eq_zero]
    intro a ha hpa
    rw [hasThinkingPart] at hrest
    have := List.any_eq_true.mpr ⟨a, ha, hpa⟩
    rw [hrest] at this
    exact absurd this (by simp)
  rw [h0]
  simp [isThinkingPart]

theorem textFold_eq_applyOps (st : GreenhouseState) (id : String) (ts : List String) :
    textFold st id ts = applyOps st id (ts.map StreamOp.textOp) := by
  unfold textFold applyOps
  rw [List.foldl_map]
  rfl

theorem foldOpsContent_map_textOp (content : List ContentPart) (ts : List String) :
    foldOpsContent content (ts.map StreamOp.textOp) = ts.foldl appendTextPart content := by
  unfold foldOpsContent
  rw [List.foldl_map]
  rfl

theorem thinkTexts_map_textOp (ts : List String) :
    thinkTexts (ts.map StreamOp.textOp) = [] := by
  unfold thinkTexts
  rw [List.filterMap_map]
  simp [Function.comp]

-- ---------------------------------------------------------------------------
-- The claims
-- ---------------------------------------------------------------------------

/-- C1: streaming text accumulation.  Applying appendToAssistant with
payloads s1..sn (n at least 1) to a freshly created assistant placeholder
leaves the message with exactly one content segment, a Text segment whose
text is the concatenation of the payloads; in general appendToAssistant is
a no-op when the id resolves to no message or to a non-assistant message,
and otherwise it extends a trailing Text segment in place or else appends
a new Text segment. -/
theorem claim_C1 :
    (∀ (st : GreenhouseState) (aid : String) (t : Nat) (ts : List String),
      ts ≠ [] → (∀ m ∈ st.messages, m.id ≠ aid) →
      (textFold (addAssistantPlaceholder st aid t) aid ts).messages.find?
          (fun m => m.id == aid) =
        some { id := aid, role := Role.assistant, content := [ContentPart.text (concatAll ts)], createdAt := t })
  ∧ (∀ (st : GreenhouseState) (mid s : String),
      st.messages.find? (fun m => m.id == mid) = none → appendToAssistant st mid s = st)
  ∧ (∀ (st : GreenhouseState) (mid s : String) (m : Message),
      st.messages.find? (fun m => m.id == mid) = some m → m.role ≠ Role.assistant →
      appendToAssistant st mid s = st)
  ∧ (∀ (st : GreenhouseState) (mid s : String) (m : Message),
      st.messages.find? (fun m => m.id == mid) = some m → m.role = Role.assistant →
      (appendToAssistant st mid s).messages =
        updateMessage st.messages mid
          (fun m2 => { m2 with content := appendTextPart m2.content s }))
  ∧ (∀ (content : List ContentPart) (s : String),
      appendTextPart content s =
        match content.getLast? with
        | some (ContentPart.text t) => content.dropLast ++ [ContentPart.text (t ++ s)]
        | _ => content ++ [ContentPart.text s]) := by
  refine ⟨?_, ?_, ?_, ?_, ?_⟩
  · intro st aid t ts hne hfresh
    have hmsgs : (addAssistantPlaceholder st aid t).messages =
        st.messages ++ [{ id := aid, role := Role.assistant, content := [], createdAt := t }] := rfl
    rw [textFold_eq_applyOps]
    rw [applyOps_local (ts.map StreamOp.textOp) (addAssistantPlaceholder st aid t)
      st.messages { id := aid, role := Role.assistant, content := [], createdAt := t }
      aid hmsgs hfresh rfl rfl]
    have hcontent : foldOpsContent [] (ts.map StreamOp.textOp) =
        [ContentPart.text (concatAll ts)] := by
      rw [foldOpsContent_map_textOp]
      exact foldl_appendTextPart_nil ts hne
    show (st.messages ++ [({ id := aid, role := Role.assistant, content := foldOpsContent [] (ts.map StreamOp.textOp), createdAt := t } : Message)]).find? (fun m => m.id == aid) = _
    rw [hcontent]
    exact find?_append_last st.messages _ aid hfresh rfl
  · intro st mid s h
    simp [appendToAssistant, h]
  · intro st mid s m h hrole
    simp [appendToAssistant, h, hrole]
  · intro st mid s m h hrole
    simp [appendToAssistant, h, hrole]
  · intro content s
    rfl

/-- Witness for C1 at a concrete input: two payloads applied to a fresh
placeholder in the empty store concatenate into one Text segment. -/
theorem claim_C1_witness :
    (textFold (addAssistantPlaceholder initialState "a" 0) "a" ["He", "llo"]).messages.find?
        (fun m => m.id == "a") =
      some { id := "a", role := Role.assistant, content := [ContentPart.text "Hello"], createdAt := 0 } := by
  have h := claim_C1.1 initialState "a" 0 ["He", "llo"] (by simp) (by simp [initialState])
  rw [show concatAll ["He", "llo"] = "Hello" from rfl] at h
  exact h

/-- C3: updateToolResult is a total, defensive update.  When the message id
resolves to no message, or the resolved message has no ToolCall segment
with the given toolCallId, the whole store state is unchanged (and the
operation is a total function, so it never raises); when a matching
ToolCall segment exists, exactly that segment gets result set and isError
set (false when omitted), and nothing else changes. -/
theorem claim_C3 :
    (∀ (st : GreenhouseState) (mid tcId : String) (r : JSONValue) (ie : Option Bool),
      st.messages.find? (fun m => m.id == mid) = none →
      updateToolResult st mid tcId r ie = st)
  ∧ (∀ (st : GreenhouseState) (mid tcId : String) (r : JSONValue) (ie : Option Bool)
      (m : Message), st.messages.find? (fun m => m.id == mid) = some m →
      hasToolCall m.content tcId = false →
      updateToolResult st mid tcId r ie = st)
  ∧ (∀ (st : GreenhouseState) (mid tcId : String) (r : JSONValue) (ie : Option Bool)
      (m : Message), st.messages.find? (fun m => m.id == mid) = some m →
      hasToolCall m.content tcId = true →
      updateToolResult st mid tcId r ie =
        { st with messages := updateMessage st.messages mid (fun m2 => { m2 with content := setToolResult m2.content tcId r (ie.getD false) }) })
  ∧ (∀ (st : GreenhouseState) (mid tcId : String) (r : JSONValue),
      updateToolResult st mid tcId r none = updateToolResult st mid tcId r (some false))
  ∧ (∀ (pre post : List ContentPart) (tc : ToolCallPart) (tcId : String)
      (r : JSONValue) (ie : Bool), hasToolCall pre tcId = false → tc.toolCallId = tcId →
      setToolResult (pre ++ ContentPart.toolCall tc :: post) tcId r ie =
        pre ++ ContentPart.toolCall { tc with result := some r, isError := some ie } :: post) := by
  refine ⟨?_, ?_, ?_, ?_, setToolResult_append⟩
  · intro st mid tcId r ie h
    simp [updateToolResult, h]
  · intro st mid tcId r ie m h hno
    simp [updateToolResult, h, hno]
  · intro st mid tcId r ie m h hyes
    simp [updateToolResult, h, hyes]
  · intro st mid tcId r
    rfl

/-- Witness for C3 at a concrete input: updating a tool result against the
empty store (no message resolves) leaves the state unchanged. -/
theorem claim_C3_witness :
    updateToolResult initialState "m1" "t1" JSONValue.null none = initialState :=
  claim_C3.1 initialState "m1" "t1" JSONValue.null none (by simp [initialState])

/-- C6: loadSession installs exactly the given history.  Without a total
count the store holds exactly the given messages, the given session id,
and hasMoreHistory false; with a total count t, hasMoreHistory equals
t > length of the messages. -/
theorem claim_C6 : ∀ (st : GreenhouseState) (id : String) (msgs : List Message),
    ((loadSession st id msgs none).messages = msgs ∧
      (loadSession st id msgs none).sessionId = some id ∧
      (loadSession st id msgs none).hasMoreHistory = false ∧
      (loadSession st id msgs none).totalMessageCount = msgs.length) ∧
    ∀ t : Nat, (loadSession st id msgs (some t)).messages = msgs ∧
      (loadSession st id msgs (some t)).sessionId = some id ∧
      (loadSession st id msgs (some t)).hasMoreHistory = decide (msgs.length < t) := by
  intro st id msgs
  refine ⟨⟨rfl, rfl, rfl, rfl⟩, fun t => ⟨rfl, rfl, ?_⟩⟩
  cases t with
  | zero => simp [loadSession]
  | succ n => simp [loadSession]

/-- C9: cancellation commits nothing and rolls back nothing.  The aborted
branch of the turn finalizer keeps exactly the messages committed by the
events dispatched before the abort, appends no error text, and ends with
isRunning false; onCancel itself only forces isRunning to false. -/
theorem claim_C9 : ∀ (st : GreenhouseState) (aid : String) (evs : List StreamEvent)
    (msg : String),
    runTurn st aid (.streamException evs true msg) =
      setRunning (dispatchAll st aid evs) false ∧
    (runTurn st aid (.streamException evs true msg)).messages =
      (dispatchAll st aid evs).messages ∧
    (runTurn st aid (.streamException evs true msg)).isRunning = false ∧
    onCancel st = { st with isRunning := false } ∧
    (onCancel st).messages = st.messages :=
  fun _ _ _ _ => ⟨rfl, rfl, rfl, rfl, rfl⟩

/-- C10: totalMessageCount tracks the message count.  After
addUserMessage, addAssistantPlaceholder, setMessages, or reset (and after
loadSession without a total), totalMessageCount equals the length of the
messages list. -/
theorem claim_C10 : ∀ (st : GreenhouseState) (uid : String) (uca : Nat) (utext : String)
    (uatts : Option (List Attachment)) (aid : String) (aca : Nat) (msgs : List Message),
    (addUserMessage st uid uca utext uatts).totalMessageCount =
      (addUserMessage st uid uca utext uatts).messages.length ∧
    (addAssistantPlaceholder st aid aca).totalMessageCount =
      (addAssistantPlaceholder st aid aca).messages.length ∧
    (setMessages st msgs).totalMessageCount = (setMessages st msgs).messages.length ∧
    (reset st).totalMessageCount = (reset st).messages.length ∧
    (loadSession st uid msgs none).totalMessageCount =
      (loadSession st uid msgs none).messages.length := by
  intro st uid uca utext uatts aid aca msgs
  refine ⟨?_, ?_, ?_, rfl, rfl⟩
  · simp [addUserMessage]
  · simp [addAssistantPlaceholder]
  · simp [setMessages]

/-- C2: the thinking-first invariant.  For every interleaving of text,
thinking and tool-call operations applied to a fresh assistant
placeholder, if at least one thinking payload arrived then position 0 of
the message content is a Thinking segment holding the concatenation of all
thinking payloads in arrival order, and it is the only Thinking segment.
The conclusion depends on the interleaving only through thinkTexts ops, so
the segment content is independent of how thinking events interleave with
the other operations. -/
theorem claim_C2 : ∀ (st : GreenhouseState) (aid : String) (t : Nat) (ops : List StreamOp),
    (∀ m ∈ st.messages, m.id ≠ aid) → thinkTexts ops ≠ [] →
    ∃ msg, (applyOps (addAssistantPlaceholder st aid t) aid ops).messages.find?
        (fun m => m.id == aid) = some msg ∧
      msg.content.head? = some (ContentPart.thinking (concatAll (thinkTexts ops))) ∧
      msg.content.countP isThinkingPart = 1 := by
  intro st aid t ops hfresh hthink
  have hmsgs : (addAssistantPlaceholder st aid t).messages =
      st.messages ++ [{ id := aid, role := Role.assistant, content := [], createdAt := t }] := rfl
  rw [applyOps_local ops (addAssistantPlaceholder st aid t)
    st.messages { id := aid, role := Role.assistant, content := [], createdAt := t }
    aid hmsgs hfresh rfl rfl]
  rcases foldOps_notStarted ops [] (by rfl) with ⟨htt, _⟩ | ⟨rest2, heq, hr2⟩
  · exact absurd htt hthink
  · refine ⟨{ id := aid, role := Role.assistant, content := foldOpsContent [] ops, createdAt := t }, ?_, ?_, ?_⟩
    · show (st.messages ++ [({ id := aid, role := Role.assistant, content := foldOpsContent [] ops, createdAt := t } : Message)]).find? (fun m => m.id == aid) = _
      exact find?_append_last st.messages _ aid hfresh rfl
    · show (foldOpsContent [] ops).head? = _
      rw [heq]
      rfl
    · show (foldOpsContent [] ops).countP isThinkingPart = 1
      rw [heq]
      exact countP_thinking_head _ rest2 hr2

/-- Witness for C2 at a concrete input: a thinking payload, a text payload
and a second thinking payload applied to a fresh placeholder leave one
leading Thinking segment holding both thinking payloads. -/
theorem claim_C2_witness :
    ∃ msg, (applyOps (addAssistantPlaceholder initialState "a" 0) "a"
        [StreamOp.thinkOp "x", StreamOp.textOp "b", StreamOp.thinkOp "y"]).messages.find?
        (fun m => m.id == "a") = some msg ∧
      msg.content.head? = some (ContentPart.thinking (concatAll (thinkTexts
        [StreamOp.thinkOp "x", StreamOp.textOp "b", StreamOp.thinkOp "y"]))) ∧
      msg.content.countP isThinkingPart = 1 :=
  claim_C2 initialState "a" 0 [StreamOp.thinkOp "x", StreamOp.textOp "b", StreamOp.thinkOp "y"]
    (by simp [initialState]) (by simp [thinkTexts])

/-- C4: decoder buffering across chunk boundaries.  The concrete two-chunk
scenario yields exactly the text-delta event with payload Hello and then
the synthetic done event; in general the decoded events are exactly those
of the complete (newline-terminated) lines of the concatenated input, so a
line split across chunks is buffered until a newline completes it and the
final unterminated fragment is discarded, never emitted. -/
theorem claim_C4 :
    decodeChunks ["data: \x7b\"type\":\"text-delta\",\"data\":\"Hel".toList,
        "lo\"\x7d\n\ndata: [DONE]\n\n".toList] =
      [JSONValue.obj [("type", JSONValue.str "text-delta"), ("data", JSONValue.str "Hello")],
        doneEvent]
  ∧ ∀ chunks : List (List Char),
      decodeChunks chunks = ((splitLines chunks.flatten).dropLast).flatMap processLine :=
  ⟨rfl, decodeChunks_eq⟩

/-- C5: malformed frames are dropped silently.  A complete data-prefixed
line whose payload is not the DONE sentinel and fails JSON parsing yields
zero events, and the events of any line sequence containing it are exactly
the events of the same sequence with that line removed; concretely, a
not-json frame between two valid frames yields only the two valid
events. -/
theorem claim_C5 : ∀ line : List Char,
    line.take 6 = dataMarker → line.drop 6 ≠ doneLit → jsonParse (line.drop 6) = none →
    processLine line = [] ∧
    (∀ ls1 ls2 : List (List Char),
      (ls1 ++ line :: ls2).flatMap processLine = (ls1 ++ ls2).flatMap processLine) ∧
    decodeChunks
        ["data: \x7b\"type\":\"text-delta\",\"data\":\"A\"\x7d\ndata: not-json\ndata: [DONE]\n\n".toList] =
      [JSONValue.obj [("type", JSONValue.str "text-delta"), ("data", JSONValue.str "A")],
        doneEvent] := by
  intro line h1 h2 h3
  have hpl : processLine line = [] := by
    unfold processLine
    simp only [h1, if_pos, h2, h3]
    simp [h2]
  refine ⟨hpl, ?_, rfl⟩
  intro ls1 ls2
  rw [List.flatMap_append, List.flatMap_append]
  show ls1.flatMap processLine ++ (processLine line ++ ls2.flatMap processLine) = _
  rw [hpl, List.nil_append]

/-- Witness for C5 at a concrete input: the line data: not-json is a
complete malformed frame line, yields no event, and dropping it from a
line sequence leaves the events unchanged. -/
theorem claim_C5_witness :
    processLine ("data: not-json".toList) = [] ∧
    (["data: [DONE]".toList] ++ "data: not-json".toList :: ["data: [DONE]".toList]).flatMap
        processLine =
      (["data: [DONE]".toList] ++ ["data: [DONE]".toList]).flatMap processLine := by
  have h := claim_C5 ("data: not-json".toList) rfl (by decide) rfl
  exact ⟨h.1, h.2.1 ["data: [DONE]".toList] ["data: [DONE]".toList]⟩

/-- C7: the message list is append-or-point-update only.  Every one of the
six message operations either appends exactly one message at the end
(keeping every existing message at its position), leaves the list
unchanged, or replaces the single first message whose id is the operation
target with a copy differing only in content; so no message is ever
deleted or reordered and at most the target message's content changes. -/
theorem claim_C7 : ∀ (st : GreenhouseState) (op : StoreOp),
    (∃ m, (op.applyTo st).messages = st.messages ++ [m]) ∨
    (op.applyTo st).messages = st.messages ∨
    (∃ i m c, st.messages[i]? = some m ∧ m.id = op.targetId ∧
      (op.applyTo st).messages = st.messages.set i { m with content := c }) := by
  intro st op
  cases op with
  | addUser id ca c atts => exact Or.inl ⟨_, rfl⟩
  | addPlaceholder id ca => exact Or.inl ⟨_, rfl⟩
  | appendTextTo id s =>
    show _ ∨ (appendToAssistant st id s).messages = _ ∨ _
    cases hf : st.messages.find? (fun m => m.id == id) with
    | none => exact Or.inr (Or.inl (by simp [appendToAssistant, hf]))
    | some m =>
      by_cases hrole : m.role = Role.assistant
      · have hmsg : (appendToAssistant st id s).messages =
            updateMessage st.messages id
              (fun m2 => { m2 with content := appendTextPart m2.content s }) := by
          simp [appendToAssistant, hf, hrole]
        rcases updateMessage_cases st.messages id
            (fun m2 => { m2 with content := appendTextPart m2.content s }) with h | ⟨i, m2, hget, hid2, heq⟩
        · exact Or.inr (Or.inl (by rw [hmsg, h]))
        · exact Or.inr (Or.inr ⟨i, m2, appendTextPart m2.content s, hget, hid2, by show (appendToAssistant st id s).messages = _; rw [hmsg, heq]⟩)
      · exact Or.inr (Or.inl (by simp [appendToAssistant, hf, hrole]))
  | appendThinkTo id s =>
    show _ ∨ (appendThinking st id s).messages = _ ∨ _
    cases hf : st.messages.find? (fun m => m.id == id) with
    | none => exact Or.inr (Or.inl (by simp [appendThinking, hf]))
    | some m =>
      by_cases hrole : m.role = Role.assistant
      · have hmsg : (appendThinking st id s).messages =
            updateMessage st.messages id
              (fun m2 => { m2 with content := appendThinkingPart m2.content s }) := by
          simp [appendThinking, hf, hrole]
        rcases updateMessage_cases st.messages id
            (fun m2 => { m2 with content := appendThinkingPart m2.content s }) with h | ⟨i, m2, hget, hid2, heq⟩
        · exact Or.inr (Or.inl (by rw [hmsg, h]))
        · exact Or.inr (Or.inr ⟨i, m2, appendThinkingPart m2.content s, hget, hid2, by show (appendThinking st id s).messages = _; rw [hmsg, heq]⟩)
      · exact Or.inr (Or.inl (by simp [appendThinking, hf, hrole]))
  | addToolTo id tc =>
    show _ ∨ (addToolCall st id tc).messages = _ ∨ _
    cases hf : st.messages.find? (fun m => m.id == id) with
    | none => exact Or.inr (Or.inl (by simp [addToolCall, hf]))
    | some m =>
      by_cases hrole : m.role = Role.assistant
      · have hmsg : (addToolCall st id tc).messages =
            updateMessage st.messages id
              (fun m2 => { m2 with content := m2.content ++ [ContentPart.toolCall tc] }) := by
          simp [addToolCall, hf, hrole]
        rcases updateMessage_cases st.messages id
            (fun m2 => { m2 with content := m2.content ++ [ContentPart.toolCall tc] }) with h | ⟨i, m2, hget, hid2, heq⟩
        · exact Or.inr (Or.inl (by rw [hmsg, h]))
        · exact Or.inr (Or.inr ⟨i, m2, m2.content ++ [ContentPart.toolCall tc], hget, hid2, by show (addToolCall st id tc).messages = _; rw [hmsg, heq]⟩)
      · exact Or.inr (Or.inl (by simp [addToolCall, hf, hrole]))
  | updateToolOn id tcId r ie =>
    show _ ∨ (updateToolResult st id tcId r ie).messages = _ ∨ _
    cases hf : st.messages.find? (fun m => m.id == id) with
    | none => exact Or.inr (Or.inl (by simp [updateToolResult, hf]))
    | some m =>
      by_cases hh : hasToolCall m.content tcId
      · have hmsg : (updateToolResult st id tcId r ie).messages =
            updateMessage st.messages id
              (fun m2 => { m2 with content := setToolResult m2.content tcId r (ie.getD false) }) := by
          simp [updateToolResult, hf, hh]
        rcases updateMessage_cases st.messages id
            (fun m2 => { m2 with content := setToolResult m2.content tcId r (ie.getD false) }) with h | ⟨i, m2, hget, hid2, heq⟩
        · exact Or.inr (Or.inl (by rw [hmsg, h]))
        · exact Or.inr (Or.inr ⟨i, m2, setToolResult m2.content tcId r (ie.getD false), hget, hid2, by show (updateToolResult st id tcId r ie).messages = _; rw [hmsg, heq]⟩)
      · have hb : hasToolCall m.content tcId = false := by
          cases hbb : hasToolCall m.content tcId with
          | false => rfl
          | true => exact absurd hbb hh
        exact Or.inr (Or.inl (by simp [updateToolResult, hf, hb]))

theorem errorAppend_final (stX : GreenhouseState) (pre : List Message) (m : Message)
    (aid err : String) (hmsgs : stX.messages = pre ++ [m])
    (hfresh : ∀ m2 ∈ pre, m2.id ≠ aid) (hid : m.id = aid) (hrole : m.role = Role.assistant) :
    ∃ msg, (setRunning (appendToAssistant stX aid err) false).messages.find?
        (fun x => x.id == aid) = some msg ∧
      msg.content ≠ [] ∧
      (∃ t0, msg.content.getLast? = some (ContentPart.text (t0 ++ err))) ∧
      (setRunning (appendToAssistant stX aid err) false).isRunning = false := by
  have happ := appendToAssistant_local stX pre m aid err hmsgs hfresh hid hrole
  refine ⟨{ m with content := appendTextPart m.content err }, ?_, ?_, ?_, rfl⟩
  · show (appendToAssistant stX aid err).messages.find? (fun x => x.id == aid) = _
    rw [happ]
    show (pre ++ [({ m with content := appendTextPart m.content err } : Message)]).find? (fun x => x.id == aid) = _
    exact find?_append_last pre _ aid hfresh hid
  · exact appendTextPart_ne_nil m.content err
  · exact appendTextPart_getLast m.content err

/-- C8: transport failure synthesizes an in-thread error.  For every
failing turn outcome (non-success status, missing body, or a non-abort
exception during streaming) the turn finalizer appends the synthesized
error text to that turn's assistant placeholder, so the placeholder ends
non-empty with a trailing Text segment carrying the error message as a
suffix, and the turn ends with isRunning false. -/
theorem claim_C8 : ∀ (st : GreenhouseState) (uid : String) (uca : Nat) (utext : String)
    (uatts : Option (List Attachment)) (aid : String) (aca : Nat) (outcome : TurnOutcome),
    failsTurn outcome = true → (∀ m ∈ st.messages, m.id ≠ aid) → uid ≠ aid →
    ∃ msg, (onNewTurn st uid uca utext uatts aid aca outcome).messages.find?
        (fun x => x.id == aid) = some msg ∧
      msg.content ≠ [] ∧
      (∃ t0, msg.content.getLast? = some (ContentPart.text (t0 ++ errorText outcome))) ∧
      (onNewTurn st uid uca utext uatts aid aca outcome).isRunning = false := by
  intro st uid uca utext uatts aid aca outcome hfail hfresh huid
  have hfresh2 : ∀ m2 ∈ (addUserMessage st uid uca utext uatts).messages, m2.id ≠ aid := by
    intro m2 hm2
    rcases List.mem_append.mp hm2 with hin | hlast
    · exact hfresh m2 hin
    · rcases List.mem_singleton.mp hlast with rfl
      exact huid
  have hmsgs3 : (setRunning (addAssistantPlaceholder (addUserMessage st uid uca utext uatts) aid aca) true).messages =
      (addUserMessage st uid uca utext uatts).messages ++
        [{ id := aid, role := Role.assistant, content := [], createdAt := aca }] := rfl
  cases outcome with
  | ok events => simp [failsTurn] at hfail
  | httpError status =>
    exact errorAppend_final _ _ _ aid (errorText (.httpError status)) hmsgs3 hfresh2 rfl rfl
  | noBody =>
    exact errorAppend_final _ _ _ aid (errorText .noBody) hmsgs3 hfresh2 rfl rfl
  | streamException events aborted msg =>
    have hab : aborted = false := by
      cases aborted with
      | false => rfl
      | true => simp [failsTurn] at hfail
    subst hab
    rcases dispatchAll_local events
        (setRunning (addAssistantPlaceholder (addUserMessage st uid uca utext uatts) aid aca) true)
        (addUserMessage st uid uca utext uatts).messages
        { id := aid, role := Role.assistant, content := [], createdAt := aca }
        aid hmsgs3 hfresh2 rfl rfl with ⟨c, hc⟩
    exact errorAppend_final _ _ _ aid (errorText (.streamException events false msg)) hc hfresh2 rfl rfl

/-- Witness for C8 at a concrete input: a turn that fails with a missing
response body against the empty store leaves the placeholder holding the
synthesized error text and isRunning false. -/
theorem claim_C8_witness :
    ∃ msg, (onNewTurn initialState "u" 0 "hi" none "a" 0 TurnOutcome.noBody).messages.find?
        (fun x => x.id == "a") = some msg ∧
      msg.content ≠ [] ∧
      (∃ t0, msg.content.getLast? =
        some (ContentPart.text (t0 ++ errorText TurnOutcome.noBody))) ∧
      (onNewTurn initialState "u" 0 "hi" none "a" 0 TurnOutcome.noBody).isRunning = false :=
  claim_C8 initialState "u" 0 "hi" none "a" 0 TurnOutcome.noBody rfl
    (by simp [initialState]) (by decide)
